import Mathlib

/-!
Verification of the e-note-ion scheduler (scheduler.py) against its
natural-language specification.

The development shallowly embeds the data model and operations of
scheduler.py: the queued-message ordering (`QueuedMessage.__lt__`), the
coalescing popper (`pop_valid_message`), the supersede-tag enqueue
(`enqueue`, together with a faithful embedding of the CPython `heapq`
routines it relies on), the hold controller (`_do_hold`) as a step
function over a trace of environment observations, the worker dispatch
logic (`worker`), and the webhook request handler
(`_WebhookHandler.do_POST`).

Machine integers are `Int`/`Nat`; wall-clock instants (Python floats from
`time.monotonic()`) are modelled as exact rationals, which preserves every
comparison the scheduler performs on them.
-/

namespace ENoteIon

/-- Priority at or above which a queued message may cut a hold short
(`_INTERRUPT_PRIORITY_THRESHOLD = 8` in scheduler.py). -/
def INTERRUPT_PRIORITY_THRESHOLD : Int := 8

/-- Seconds between priority-peek checks during a hold
(`_HOLD_POLL_INTERVAL = 1.0` in scheduler.py). -/
def HOLD_POLL_INTERVAL : ℚ := 1

/-- Shape of a variables payload: a mapping from names to lists of options,
each option a list of lines (spec section 6). -/
abbrev VarsPayload := List (String × List (List String))

/-- Shape of the template list carried in a message payload. -/
abbrev Templates := List (List String)

/-- The `data` payload dictionary of a queued message, restricted to the
keys scheduler.py reads.  An `Option` field is `none` exactly when the
corresponding key is absent from the Python dict.  The `vars` field models
the `variables` key (that word is reserved in Lean). -/
structure MsgData where
  vars : Option VarsPayload
  integration : Option String
  integration_fn : Option String
  templates : Option Templates
  truncation : Option String
  refresh_interval : Option Int
deriving DecidableEq, Repr, Inhabited

/-- A pending display message waiting in the priority queue
(`QueuedMessage` in scheduler.py). -/
structure QueuedMessage where
  priority : Int
  seq : Nat
  name : String
  scheduled_at : ℚ
  data : MsgData
  hold : Int
  timeout : Int
  indefinite : Bool
  supersede_tag : String
deriving DecidableEq, Repr, Inhabited

/-- The comparison `QueuedMessage.__lt__`: the queue is a min-heap, so the
priority comparison is inverted (higher numeric priority pops first) and
ties are broken by the smaller sequence number. -/
def mlt (a b : QueuedMessage) : Bool :=
  if a.priority ≠ b.priority then decide (b.priority < a.priority)
  else decide (a.seq < b.seq)

theorem mlt_irrefl (a : QueuedMessage) : mlt a a = false := by
  simp [mlt]

theorem mlt_trans {a b c : QueuedMessage} (h1 : mlt a b = true) (h2 : mlt b c = true) :
    mlt a c = true := by
  simp only [mlt, ne_eq, decide_eq_true_eq] at h1 h2 ⊢
  split at h1 <;> split at h2 <;> split <;> simp_all <;> omega

theorem mlt_asymm {a b : QueuedMessage} (h : mlt a b = true) : mlt b a = false := by
  by_cases hba : mlt b a = true
  · have := mlt_trans h hba
    rw [mlt_irrefl] at this
    exact absurd this (by simp)
  · simpa using hba

theorem mlt_negTrans {a b c : QueuedMessage} (h1 : mlt a b = false) (h2 : mlt b c = false) :
    mlt a c = false := by
  simp only [mlt, ne_eq, decide_eq_true_eq] at h1 h2 ⊢
  split at h1 <;> split at h2 <;> split <;> simp_all <;> omega

section PyMin

variable {α : Type} (lt : α → α → Bool)

/-- The running minimum computed by the builtin `min` over `b :: xs`:
a later element replaces the current best only when strictly below it, so
the earliest minimal element wins. -/
def pyMinAux : List α → α → α
  | [], b => b
  | x :: xs, b => pyMinAux xs (if lt x b then x else b)

theorem pyMinAux_nil (b : α) : pyMinAux lt [] b = b := rfl

theorem pyMinAux_cons (x : α) (xs : List α) (b : α) :
    pyMinAux lt (x :: xs) b = pyMinAux lt xs (if lt x b then x else b) := rfl

theorem pyMinAux_mem : ∀ (xs : List α) (b : α), pyMinAux lt xs b = b ∨ pyMinAux lt xs b ∈ xs := by
  intro xs
  induction xs with
  | nil => intro b; exact Or.inl rfl
  | cons x rest ih =>
    intro b
    rw [pyMinAux_cons]
    by_cases h : lt x b = true
    · rw [if_pos h]
      rcases ih x with h1 | h1
      · exact Or.inr (by simp [h1])
      · exact Or.inr (by simp [h1])
    · rw [if_neg (by simpa using h)]
      rcases ih b with h1 | h1
      · exact Or.inl h1
      · exact Or.inr (by simp [h1])

theorem pyMinAux_chain
    (htrans : ∀ a b c, lt a b = true → lt b c = true → lt a c = true) :
    ∀ (xs : List α) (b : α), pyMinAux lt xs b = b ∨ lt (pyMinAux lt xs b) b = true := by
  intro xs
  induction xs with
  | nil => intro b; exact Or.inl rfl
  | cons x rest ih =>
    intro b
    rw [pyMinAux_cons]
    by_cases h : lt x b = true
    · rw [if_pos h]
      rcases ih x with h1 | h1
      · exact Or.inr (by rw [h1]; exact h)
      · exact Or.inr (htrans _ _ _ h1 h)
    · rw [if_neg (by simpa using h)]
      exact ih b

theorem pyMinAux_min
    (htrans : ∀ a b c, lt a b = true → lt b c = true → lt a c = true)
    (hirrefl : ∀ a, lt a a = false) :
    ∀ (xs : List α) (b y : α), y ∈ b :: xs → lt y (pyMinAux lt xs b) = false := by
  have hasymm : ∀ a b, lt a b = true → lt b a = false := by
    intro a b h
    by_cases h2 : lt b a = true
    · have := htrans _ _ _ h h2
      rw [hirrefl] at this
      exact absurd this (by simp)
    · simpa using h2
  intro xs
  induction xs with
  | nil =>
    intro b y hy
    simp only [List.mem_singleton] at hy
    subst hy
    rw [pyMinAux_nil]
    exact hirrefl _
  | cons x rest ih =>
    intro b y hy
    rw [pyMinAux_cons]
    by_cases h : lt x b = true
    · rw [if_pos h]
      rcases List.mem_cons.mp hy with h1 | h1
      · -- y = b, the element dropped by the running minimum
        subst h1
        rcases pyMinAux_chain lt htrans rest x with h2 | h2
        · rw [h2]; exact hasymm _ _ h
        · by_cases h3 : lt y (pyMinAux lt rest x) = true
          · have := htrans _ _ _ h3 h2
            rw [hasymm _ _ h] at this
            exact absurd this (by simp)
          · simpa using h3
      · exact ih x y (by simpa using h1)
    · rw [if_neg (by simpa using h)]
      rcases List.mem_cons.mp hy with h1 | h1
      · exact ih b y (by simp [h1])
      · rcases List.mem_cons.mp h1 with h2 | h2
        · -- y = x, the element dropped by the running minimum
          subst h2
          rcases pyMinAux_chain lt htrans rest b with h3 | h3
          · rw [h3]; simpa using h
          · by_cases h4 : lt y (pyMinAux lt rest b) = true
            · have := htrans _ _ _ h4 h3
              simp only [this] at h
              exact absurd h (by simp)
            · simpa using h4
        · exact ih b y (by simp [h2])

end PyMin

/-- The batch-filtering step of `pop_valid_message`: a drained candidate is
kept exactly when `now - m.scheduled_at <= m.timeout`; the rest are
discarded with a log line. -/
def validOf (candidates : List QueuedMessage) (now : ℚ) : List QueuedMessage :=
  candidates.filter fun m => decide (now - m.scheduled_at ≤ (m.timeout : ℚ))

/-- The selection step of `pop_valid_message` on the drained batch: pick
`min(valid)` under `QueuedMessage.__lt__` and re-enqueue every other valid
candidate (removing the selected occurrence leaves exactly the multiset of
re-enqueued messages).  Returns the popped message and the re-enqueued
list. -/
def pop_valid_message (candidates : List QueuedMessage) (now : ℚ) :
    Option QueuedMessage × List QueuedMessage :=
  match validOf candidates now with
  | [] => (none, [])
  | v :: vs =>
    let best := pyMinAux mlt vs v
    (some best, (v :: vs).erase best)

theorem mem_validOf {candidates : List QueuedMessage} {now : ℚ} {m : QueuedMessage} :
    m ∈ validOf candidates now ↔ m ∈ candidates ∧ now - m.scheduled_at ≤ (m.timeout : ℚ) := by
  simp [validOf]

theorem pop_valid_eq_of_validOf {candidates : List QueuedMessage} {now : ℚ}
    {v : QueuedMessage} {vs : List QueuedMessage}
    (hv : validOf candidates now = v :: vs) :
    pop_valid_message candidates now =
      (some (pyMinAux mlt vs v), (v :: vs).erase (pyMinAux mlt vs v)) := by
  unfold pop_valid_message
  rw [hv]

theorem pop_valid_best_mem
    (candidates : List QueuedMessage) (now : ℚ) (best : QueuedMessage)
    (rest : List QueuedMessage)
    (h : pop_valid_message candidates now = (some best, rest)) :
    best ∈ validOf candidates now := by
  rcases hv : validOf candidates now with _ | ⟨v, vs⟩
  · rw [pop_valid_message, hv] at h
    simp at h
  · rw [pop_valid_eq_of_validOf hv] at h
    simp only [Prod.mk.injEq, Option.some.injEq] at h
    obtain ⟨hbest, _⟩ := h
    rcases pyMinAux_mem mlt vs v with h1 | h1
    · rw [← hbest]; simp [h1]
    · rw [← hbest]; simp [h1]

/-- C3: for every non-empty batch of valid candidates drained in one
`pop_valid_message` cycle, the returned message is minimal under the
section-3 ordering (strictly greater numeric priority first, ties broken
by smaller `seq`), and the valid candidates are exactly the returned
message together with the re-enqueued ones, each kept unchanged. -/
theorem pop_valid_returns_min_and_requeues_rest
    (candidates : List QueuedMessage) (now : ℚ) (best : QueuedMessage)
    (rest : List QueuedMessage)
    (h : pop_valid_message candidates now = (some best, rest)) :
    best ∈ validOf candidates now ∧
    (∀ m ∈ validOf candidates now, mlt m best = false) ∧
    (validOf candidates now).Perm (best :: rest) := by
  rcases hv : validOf candidates now with _ | ⟨v, vs⟩
  · rw [pop_valid_message, hv] at h
    simp at h
  · rw [pop_valid_eq_of_validOf hv] at h
    simp only [Prod.mk.injEq, Option.some.injEq] at h
    obtain ⟨hbest, hrest⟩ := h
    have hmem : best ∈ v :: vs := by
      rcases pyMinAux_mem mlt vs v with h1 | h1
      · rw [← hbest]; simp [h1]
      · rw [← hbest]; simp [h1]
    refine ⟨hmem, ?_, ?_⟩
    · intro m hm
      rw [← hbest]
      exact pyMinAux_min mlt (fun a b c => mlt_trans) (fun a => mlt_irrefl a) vs v m hm
    · rw [← hrest, ← hbest]
      exact List.perm_cons_erase (by rw [hbest]; exact hmem)

/-- C4: `pop_valid_message` never returns an expired message: a returned
message satisfies `now - scheduled_at <= timeout` at the validity check,
and every drained candidate past its timeout is discarded: it is neither
returned nor re-enqueued. -/
theorem pop_valid_never_returns_expired
    (candidates : List QueuedMessage) (now : ℚ) :
    (∀ best rest, pop_valid_message candidates now = (some best, rest) →
       now - best.scheduled_at ≤ (best.timeout : ℚ)) ∧
    (∀ m ∈ candidates, (m.timeout : ℚ) < now - m.scheduled_at →
       (pop_valid_message candidates now).1 ≠ some m ∧
       m ∉ (pop_valid_message candidates now).2) := by
  constructor
  · intro best rest h
    exact (mem_validOf.mp (pop_valid_best_mem candidates now best rest h)).2
  · intro m _ hexp
    have hnotvalid : m ∉ validOf candidates now := by
      intro hmem
      have := (mem_validOf.mp hmem).2
      linarith
    rcases hv : validOf candidates now with _ | ⟨v, vs⟩
    · rw [pop_valid_message, hv]
      simp
    · rw [pop_valid_eq_of_validOf hv]
      constructor
      · intro hcontra
        simp only [Option.some.injEq] at hcontra
        have hmem : pyMinAux mlt vs v ∈ v :: vs := by
          rcases pyMinAux_mem mlt vs v with h1 | h1
          · simp [h1]
          · simp [h1]
        rw [hcontra] at hmem
        exact hnotvalid (hv ▸ hmem)
      · intro hcontra
        have : m ∈ v :: vs := List.mem_of_mem_erase hcontra
        exact hnotvalid (hv ▸ this)

/-- A concrete low-priority candidate used in the C3 witness. -/
def lowMsg : QueuedMessage :=
  { priority := 0, seq := 0, name := "low", scheduled_at := 0,
    data := default, hold := 10, timeout := 60, indefinite := false,
    supersede_tag := "" }

/-- A concrete high-priority candidate used in the C3 witness. -/
def highMsg : QueuedMessage :=
  { priority := 9, seq := 1, name := "high", scheduled_at := 0,
    data := default, hold := 10, timeout := 60, indefinite := false,
    supersede_tag := "" }

/-- Closed witness for C3 at a concrete two-message batch: the
higher-priority message is popped and the other is re-enqueued. -/
theorem pop_valid_returns_min_witness :
    highMsg ∈ validOf [lowMsg, highMsg] 1 ∧
    (∀ m ∈ validOf [lowMsg, highMsg] 1, mlt m highMsg = false) ∧
    (validOf [lowMsg, highMsg] 1).Perm (highMsg :: [lowMsg]) :=
  pop_valid_returns_min_and_requeues_rest [lowMsg, highMsg] 1 highMsg [lowMsg]
    (by
      have hv : validOf [lowMsg, highMsg] 1 = [lowMsg, highMsg] := by
        norm_num [validOf, List.filter, lowMsg, highMsg]
      rw [pop_valid_eq_of_validOf hv]
      decide)

/-- Closed witness for C4 at a concrete batch holding one fresh and one
expired message: the expired one is neither returned nor re-enqueued. -/
theorem pop_valid_never_returns_expired_witness :
    (pop_valid_message
        [{ lowMsg with name := "stale", timeout := 0, scheduled_at := 0 },
         { highMsg with name := "fresh" }] 1).1 ≠
      some { lowMsg with name := "stale", timeout := 0, scheduled_at := 0 } ∧
    { lowMsg with name := "stale", timeout := 0, scheduled_at := 0 } ∉
      (pop_valid_message
        [{ lowMsg with name := "stale", timeout := 0, scheduled_at := 0 },
         { highMsg with name := "fresh" }] 1).2 :=
  (pop_valid_never_returns_expired
      [{ lowMsg with name := "stale", timeout := 0, scheduled_at := 0 },
       { highMsg with name := "fresh" }] 1).2
    { lowMsg with name := "stale", timeout := 0, scheduled_at := 0 }
    (by simp) (by norm_num [lowMsg])

/-! ### Hold controller (`_do_hold`)

The `_do_hold` loop is embedded as a step function driven by a finite
trace of per-iteration environment observations: whether another thread
sets the `_hold_interrupt` event during the iteration's wait, and what the
top of the heap holds when the loop peeks at it.  Time advances by the
duration the `Event.wait` call actually blocked. -/

/-- One loop iteration's view of the environment during `_do_hold`:
`interruptAt s` means another thread sets the interrupt event `s` seconds
into this iteration's wait (observed only when `s` is within the wait
timeout); `topPriority` is the priority of the top-of-heap message at this
iteration's pre-emption peek (`none` when the queue is empty). -/
structure HoldObs where
  interruptAt : Option ℚ
  topPriority : Option Int
deriving DecidableEq, Repr, Inhabited

/-- State of one `_do_hold` call: elapsed time since `hold_start`, the
process-wide `_hold_interrupt` event flag, and the elapsed time of the
last refresh. -/
structure HoldState where
  t : ℚ
  ev : Bool
  lastRefresh : ℚ
deriving DecidableEq, Repr, Inhabited

/-- How a `_do_hold` call returned: hold expiry, webhook interrupt, or
priority pre-emption (recording the `elapsed` value and the top-of-heap
priority that the exiting check saw). -/
inductive HoldExit where
  | expiry : HoldExit
  | interrupt : HoldExit
  | preempt : ℚ → Int → HoldExit
deriving DecidableEq, Repr

/-- Whether the top-of-heap peek `if _queue.queue and
_queue.queue[0].priority >= _INTERRUPT_PRIORITY_THRESHOLD` fires. -/
def topTriggers : Option Int → Bool
  | some p => decide (INTERRUPT_PRIORITY_THRESHOLD ≤ p)
  | none => false

/-- The wait timeout of one `_do_hold` iteration: the poll interval,
capped by the remaining hold time unless the hold is indefinite, and by
the time until the next refresh when a refresh closure is active. -/
def holdNextWake (msg : QueuedMessage) (refreshOn : Bool) (refreshInterval : Int)
    (st : HoldState) : ℚ :=
  let nw0 := if msg.indefinite then HOLD_POLL_INTERVAL
    else min HOLD_POLL_INTERVAL ((msg.hold : ℚ) - st.t)
  if refreshOn = true ∧ refreshInterval ≠ 0 then
    min nw0 (max 0 ((refreshInterval : ℚ) - (st.t - st.lastRefresh)))
  else nw0

/-- The result of `_hold_interrupt.wait(timeout=next_wake)`: the time the
call blocked and whether it observed the event.  An already-set event
returns immediately; an event set during the wait returns at that
moment; otherwise the full timeout elapses. -/
def holdWait (ev : Bool) (interruptAt : Option ℚ) (nw : ℚ) : ℚ × Bool :=
  if ev then (0, true)
  else
    match interruptAt with
    | some s => if s ≤ nw then (s, true) else (nw, false)
    | none => (nw, false)

/-- The periodic-refresh bookkeeping at the bottom of the `_do_hold`
loop: when a refresh closure is active and due, `last_refresh` advances
(errors from the refresh itself are logged and swallowed). -/
def holdRefreshUpdate (refreshOn : Bool) (refreshInterval : Int)
    (lastRefresh t2 : ℚ) : ℚ :=
  if refreshOn = true ∧ refreshInterval ≠ 0 ∧
      (refreshInterval : ℚ) ≤ t2 - lastRefresh then t2
  else lastRefresh

/-- The `_do_hold` loop of scheduler.py.  Each iteration re-checks expiry
at the top (exiting there touches nothing), blocks on the interrupt event
for `holdNextWake` seconds, unconditionally clears the event, exits if the
wait observed it, then runs the pre-emption check with the iteration-top
`elapsed` value, and finally the periodic refresh.  Returns `none` when
the observation trace is exhausted with the hold still running. -/
def doHoldRun (msg : QueuedMessage) (minHold : ℚ) (refreshOn : Bool)
    (refreshInterval : Int) :
    List HoldObs → HoldState → Option (HoldExit × HoldState)
  | trace, st =>
    if (msg.hold : ℚ) - st.t ≤ 0 ∧ msg.indefinite = false then some (.expiry, st)
    else
      match trace with
      | [] => none
      | obs :: rest =>
        let w := holdWait st.ev obs.interruptAt (holdNextWake msg refreshOn refreshInterval st)
        let t2 := st.t + w.1
        if w.2 = true then some (.interrupt, ⟨t2, false, st.lastRefresh⟩)
        else if msg.priority < INTERRUPT_PRIORITY_THRESHOLD ∧ minHold ≤ st.t ∧
            topTriggers obs.topPriority = true then
          some (.preempt st.t (obs.topPriority.getD 0), ⟨t2, false, st.lastRefresh⟩)
        else
          doHoldRun msg minHold refreshOn refreshInterval rest
            ⟨t2, false, holdRefreshUpdate refreshOn refreshInterval st.lastRefresh t2⟩

theorem doHoldRun_preempt_inv
    (msg : QueuedMessage) (minHold : ℚ) (refreshOn : Bool) (refreshInterval : Int)
    (trace : List HoldObs) (st : HoldState) (e : ℚ) (p : Int) (st' : HoldState)
    (h : doHoldRun msg minHold refreshOn refreshInterval trace st =
      some (.preempt e p, st')) :
    msg.priority < INTERRUPT_PRIORITY_THRESHOLD ∧ minHold ≤ e ∧
      INTERRUPT_PRIORITY_THRESHOLD ≤ p := by
  induction trace generalizing st with
  | nil =>
    rw [doHoldRun] at h
    split at h
    · simp at h
    · simp at h
  | cons obs rest ih =>
    rw [doHoldRun] at h
    split at h
    · simp at h
    · dsimp only at h
      split at h
      · simp at h
      · split at h
        · rename_i hguard
          simp only [Option.some.injEq, Prod.mk.injEq, HoldExit.preempt.injEq] at h
          obtain ⟨⟨he, hp⟩, _⟩ := h
          obtain ⟨h1, h2, h3⟩ := hguard
          refine ⟨h1, he ▸ h2, ?_⟩
          rcases hobs : obs.topPriority with _ | q
          · rw [hobs] at h3; simp [topTriggers] at h3
          · rw [hobs] at h3
            simp only [topTriggers, decide_eq_true_eq] at h3
            rw [← hp, hobs]
            simpa using h3
        · exact ih _ h

/-- C7: a `_do_hold` call exits via the pre-emption path only when all
three conditions held at the exiting check: elapsed time at least
`min_hold`, the held message's priority strictly below
`_INTERRUPT_PRIORITY_THRESHOLD`, and the top-of-heap priority at or above
it; consequently a hold at or above the threshold never exits via
pre-emption. -/
theorem doHold_preempt_needs_all_conditions
    (msg : QueuedMessage) (minHold : ℚ) (refreshOn : Bool) (refreshInterval : Int)
    (trace : List HoldObs) (st : HoldState) (e : ℚ) (p : Int) (st' : HoldState)
    (h : doHoldRun msg minHold refreshOn refreshInterval trace st =
      some (.preempt e p, st')) :
    msg.priority < INTERRUPT_PRIORITY_THRESHOLD ∧ minHold ≤ e ∧
      INTERRUPT_PRIORITY_THRESHOLD ≤ p :=
  doHoldRun_preempt_inv msg minHold refreshOn refreshInterval trace st e p st' h

/-- Closed witness for C7: a concrete low-priority hold pre-empted by a
queued priority-9 message after `min_hold` has passed satisfies all three
conditions. -/
theorem doHold_preempt_needs_all_conditions_witness :
    (4 : Int) < INTERRUPT_PRIORITY_THRESHOLD ∧ (2 : ℚ) ≤ 2 ∧
      INTERRUPT_PRIORITY_THRESHOLD ≤ (9 : Int) :=
  doHold_preempt_needs_all_conditions
    { priority := 4, seq := 0, name := "aria", scheduled_at := 0,
      data := default, hold := 30, timeout := 60, indefinite := false,
      supersede_tag := "" } 2 false 0
    [⟨none, none⟩, ⟨none, none⟩, ⟨none, some 9⟩] ⟨0, false, 0⟩ 2 9 ⟨3, false, 0⟩
    (by norm_num [doHoldRun, holdWait, holdNextWake, holdRefreshUpdate, topTriggers,
      HOLD_POLL_INTERVAL, INTERRUPT_PRIORITY_THRESHOLD])

/-- C6 counterexample: an indefinite hold (priority 4, `hold = 0`) ends by
priority pre-emption — a queued priority-8 message — although the
interrupt signal is never set (the event starts clear and no observation
sets it), refuting the claim that only an interrupt ends an indefinite
hold. -/
theorem indefinite_hold_ends_without_interrupt_counterexample :
    doHoldRun
      { priority := 4, seq := 1, name := "movie", scheduled_at := 0, data := default,
        hold := 0, timeout := 60, indefinite := true, supersede_tag := "" }
      0 false 0 [⟨none, some 8⟩] ⟨0, false, 0⟩ =
      some (.preempt 0 8, ⟨1, false, 0⟩) := by
  norm_num [doHoldRun, holdWait, holdNextWake, holdRefreshUpdate, topTriggers,
    HOLD_POLL_INTERVAL, INTERRUPT_PRIORITY_THRESHOLD]

/-- C6 (amended): for an indefinite message, `_do_hold` never exits on
elapsed time reaching `msg.hold` (there is no expiry exit at all, in
particular not for `hold = 0`); the hold ends only on interrupt or on
priority pre-emption. -/
theorem indefinite_hold_never_expires
    (msg : QueuedMessage) (minHold : ℚ) (refreshOn : Bool) (refreshInterval : Int)
    (trace : List HoldObs) (st : HoldState) (ex : HoldExit) (st' : HoldState)
    (hind : msg.indefinite = true)
    (h : doHoldRun msg minHold refreshOn refreshInterval trace st = some (ex, st')) :
    ex = .interrupt ∨ ∃ e p, ex = .preempt e p := by
  induction trace generalizing st with
  | nil =>
    rw [doHoldRun] at h
    split at h
    · rename_i hc
      rw [hind] at hc
      simp at hc
    · simp at h
  | cons obs rest ih =>
    rw [doHoldRun] at h
    split at h
    · rename_i hc
      rw [hind] at hc
      simp at hc
    · dsimp only at h
      split at h
      · simp only [Option.some.injEq, Prod.mk.injEq] at h
        exact Or.inl h.1.symm
      · split at h
        · simp only [Option.some.injEq, Prod.mk.injEq] at h
          exact Or.inr ⟨_, _, h.1.symm⟩
        · exact ih _ h

/-- Closed witness for C6 (amended): a concrete indefinite hold that ends
through the interrupt path. -/
theorem indefinite_hold_never_expires_witness :
    HoldExit.interrupt = HoldExit.interrupt ∨
      ∃ e p, HoldExit.interrupt = HoldExit.preempt e p :=
  indefinite_hold_never_expires
    { priority := 8, seq := 3, name := "pause", scheduled_at := 0, data := default,
      hold := 0, timeout := 60, indefinite := true, supersede_tag := "" }
    60 false 0 [⟨some (1 / 2), none⟩] ⟨0, false, 0⟩ .interrupt ⟨1 / 2, false, 0⟩
    rfl
    (by norm_num [doHoldRun, holdWait, holdNextWake, holdRefreshUpdate, topTriggers,
      HOLD_POLL_INTERVAL, INTERRUPT_PRIORITY_THRESHOLD])

/-- C5 counterexample: a non-indefinite hold with `hold = 0` exits through
the hold-expiry check at the top of the loop before any wait, so a signal
set before the call is still set when `_do_hold` returns — refuting the
claim that every exit path clears the interrupt signal. -/
theorem doHold_signal_carryover_counterexample :
    doHoldRun
      { priority := 9, seq := 2, name := "flash", scheduled_at := 0, data := default,
        hold := 0, timeout := 60, indefinite := false, supersede_tag := "" }
      60 false 0 [] ⟨0, true, 0⟩ = some (.expiry, ⟨0, true, 0⟩) ∧
    (⟨0, true, 0⟩ : HoldState).ev = true := by
  constructor
  · norm_num [doHoldRun]
  · rfl

/-- C5 (amended): the interrupt signal is clear when `_do_hold` returns
via the interrupt or pre-emption path, and on the expiry path as soon as
at least one wait happened; the only exception is a hold that has already
expired at the first loop check (`msg.hold ≤ elapsed`, non-indefinite,
e.g. `hold = 0`), which returns with the state — including a possibly set
signal — untouched. -/
theorem doHold_signal_clear_on_exit_unless_immediate_expiry
    (msg : QueuedMessage) (minHold : ℚ) (refreshOn : Bool) (refreshInterval : Int)
    (trace : List HoldObs) (st : HoldState) (ex : HoldExit) (st' : HoldState)
    (h : doHoldRun msg minHold refreshOn refreshInterval trace st = some (ex, st')) :
    st'.ev = false ∨
      (ex = .expiry ∧ st' = st ∧ (msg.hold : ℚ) - st.t ≤ 0 ∧ msg.indefinite = false) := by
  induction trace generalizing st with
  | nil =>
    rw [doHoldRun] at h
    split at h
    · rename_i hc
      simp only [Option.some.injEq, Prod.mk.injEq] at h
      exact Or.inr ⟨h.1.symm, h.2.symm, hc⟩
    · simp at h
  | cons obs rest ih =>
    rw [doHoldRun] at h
    split at h
    · rename_i hc
      simp only [Option.some.injEq, Prod.mk.injEq] at h
      exact Or.inr ⟨h.1.symm, h.2.symm, hc⟩
    · dsimp only at h
      split at h
      · simp only [Option.some.injEq, Prod.mk.injEq] at h
        exact Or.inl (by rw [← h.2])
      · split at h
        · simp only [Option.some.injEq, Prod.mk.injEq] at h
          exact Or.inl (by rw [← h.2])
        · rcases ih _ h with h1 | ⟨_, hst, _⟩
          · exact Or.inl h1
          · exact Or.inl (by rw [hst])

/-- Closed witness for C5 (amended): a hold of one second that expires
after one full wait returns with the interrupt signal clear. -/
theorem doHold_signal_clear_on_exit_witness :
    (⟨1, false, 0⟩ : HoldState).ev = false ∨
      (HoldExit.expiry = HoldExit.expiry ∧
        (⟨1, false, 0⟩ : HoldState) = (⟨0, false, 0⟩ : HoldState) ∧
        ((1 : Int) : ℚ) - (0 : ℚ) ≤ 0 ∧ false = false) :=
  doHold_signal_clear_on_exit_unless_immediate_expiry
    { priority := 5, seq := 4, name := "note", scheduled_at := 0, data := default,
      hold := 1, timeout := 60, indefinite := false, supersede_tag := "" }
    60 false 0 [⟨none, none⟩] ⟨0, false, 0⟩ .expiry ⟨1, false, 0⟩
    (by norm_num [doHoldRun, holdWait, holdNextWake, holdRefreshUpdate, topTriggers,
      HOLD_POLL_INTERVAL, INTERRUPT_PRIORITY_THRESHOLD])

/-! ### Worker dispatch (`worker`)

One iteration of the worker's send phase is embedded as a function of the
popped message and two oracles: the value the integration's variables
function would return (or the exception it would raise) and the outcome of
`vestaboard.set_state`.  The function reports which `except` arm handled
the iteration and whether `set_state` was reached. -/

/-- The exceptions distinguished by the worker's `try` block. -/
inductive PyErr where
  | keyError : String → PyErr
  | dataUnavailable : PyErr
  | duplicateContent : PyErr
  | boardLocked : PyErr
  | otherError : PyErr
deriving DecidableEq, Repr

/-- What the worker does with a popped message after its `try` block. -/
inductive WorkerAction where
  | holdMsg : WorkerAction
  | skipSilent : WorkerAction
  | retryRequeue : WorkerAction
  | retryDrop : WorkerAction
  | errorLogged : WorkerAction
deriving DecidableEq, Repr

/-- The body of the worker's `try` block, up to and including the
`vestaboard.set_state` call: `variables = message.data['variables']` runs
first (raising `KeyError` when the key is absent, even when an integration
is configured); only then is the integration consulted, the template list
read, and `set_state` invoked.  Returns the exception that escaped (if
any) and whether `set_state` was reached. -/
def workerSendPhase (m : QueuedMessage) (getVars : Except PyErr VarsPayload)
    (setState : Except PyErr Unit) : Option PyErr × Bool :=
  match m.data.vars with
  | none => (some (.keyError "variables"), false)
  | some v =>
    let varsResult : Except PyErr VarsPayload :=
      if m.data.integration.isSome then getVars else .ok v
    match varsResult with
    | .error e => (some e, false)
    | .ok _ =>
      match m.data.templates with
      | none => (some (.keyError "templates"), false)
      | some _ =>
        match setState with
        | .error e => (some e, true)
        | .ok _ => (none, true)

/-- The worker's `except` clauses, in source order: `DataUnavailable`
skips silently, `DuplicateContentError` falls through to the hold,
`BoardLockedError` sleeps and re-enqueues within the timeout, and any
other exception (including `KeyError`) is logged and the message
dropped. -/
def workerDispatch (m : QueuedMessage) (getVars : Except PyErr VarsPayload)
    (setState : Except PyErr Unit) (now : ℚ) : WorkerAction × Bool :=
  let r := workerSendPhase m getVars setState
  match r.1 with
  | none => (.holdMsg, r.2)
  | some .dataUnavailable => (.skipSilent, r.2)
  | some .duplicateContent => (.holdMsg, r.2)
  | some .boardLocked =>
    (if now - m.scheduled_at ≤ (m.timeout : ℚ) then .retryRequeue else .retryDrop, r.2)
  | some _ => (.errorLogged, r.2)

/-- C9: when `set_state` reports duplicate content, the worker does not
skip the hold: the dispatch outcome is `holdMsg` with `set_state` reached,
exactly the outcome of a successful send; and for a held message at or
above the pre-emption threshold (such as the priority-8 scenario), the
subsequent `_do_hold` never exits via pre-emption, so a lower-priority
queued message runs only after the hold ends (an expiry exit happens no
earlier than `msg.hold` seconds of elapsed time). -/
theorem duplicate_content_still_holds
    (m : QueuedMessage) (getVars : Except PyErr VarsPayload) (now : ℚ)
    (v : VarsPayload) (tp : Templates)
    (hv : m.data.vars = some v) (ht : m.data.templates = some tp)
    (hint : m.data.integration = none ∨ ∃ w, getVars = .ok w) :
    workerDispatch m getVars (.error .duplicateContent) now = (.holdMsg, true) ∧
    workerDispatch m getVars (.error .duplicateContent) now =
      workerDispatch m getVars (.ok ()) now ∧
    (∀ minHold refreshOn refreshInterval trace st ex st',
      INTERRUPT_PRIORITY_THRESHOLD ≤ m.priority →
      doHoldRun m minHold refreshOn refreshInterval trace st = some (ex, st') →
      (∀ e p, ex ≠ .preempt e p) ∧ (ex = .expiry → (m.hold : ℚ) ≤ st'.t)) := by
  have hphase : ∀ ss, workerSendPhase m getVars ss =
      (match ss with | .error e => (some e, true) | .ok _ => (none, true)) := by
    intro ss
    unfold workerSendPhase
    rw [hv, ht]
    rcases hint with hnone | ⟨w, hw⟩
    · rw [hnone]
      simp
    · rw [hw]
      rcases m.data.integration with _ | i <;> simp
  refine ⟨?_, ?_, ?_⟩
  · unfold workerDispatch
    rw [hphase]
  · unfold workerDispatch
    rw [hphase, hphase]
  · intro minHold refreshOn refreshInterval trace st ex st' hpr h
    constructor
    · intro e p hex
      subst hex
      have := doHoldRun_preempt_inv m minHold refreshOn refreshInterval
        trace st e p st' h
      omega
    · intro hex
      subst hex
      clear hphase
      induction trace generalizing st with
      | nil =>
        rw [doHoldRun] at h
        split at h
        · rename_i hc
          simp only [Option.some.injEq, Prod.mk.injEq] at h
          rw [← h.2]
          linarith [hc.1]
        · simp at h
      | cons obs rest ih =>
        rw [doHoldRun] at h
        split at h
        · rename_i hc
          simp only [Option.some.injEq, Prod.mk.injEq] at h
          rw [← h.2]
          linarith [hc.1]
        · dsimp only at h
          split at h
          · simp at h
          · split at h
            · simp at h
            · exact ih _ h

/-- Closed witness for C9: the literal scenario of the spec — a priority-8
message whose send reports duplicate content still holds. -/
theorem duplicate_content_still_holds_witness :
    workerDispatch
      { priority := 8, seq := 5, name := "pause", scheduled_at := 0,
        data := { vars := some [], integration := none, integration_fn := none,
                  templates := some [], truncation := some "hard",
                  refresh_interval := none },
        hold := 60, timeout := 60, indefinite := false, supersede_tag := "plex" }
      (.ok []) (.error .duplicateContent) 0 = (.holdMsg, true) :=
  (duplicate_content_still_holds
      { priority := 8, seq := 5, name := "pause", scheduled_at := 0,
        data := { vars := some [], integration := none, integration_fn := none,
                  templates := some [], truncation := some "hard",
                  refresh_interval := none },
        hold := 60, timeout := 60, indefinite := false, supersede_tag := "plex" }
      (.ok []) 0 [] [] rfl rfl (Or.inl rfl)).1

/-- C10: the worker reads `message.data['variables']` before checking for
an integration, so a popped message whose payload lacks the `variables`
key — even one naming a valid integration — raises `KeyError` inside the
`try` block: the generic handler logs it and drops the message,
`set_state` is never called, and no hold happens. -/
theorem missing_variables_key_drops_message
    (m : QueuedMessage) (getVars : Except PyErr VarsPayload)
    (setState : Except PyErr Unit) (now : ℚ)
    (hnone : m.data.vars = none) :
    workerDispatch m getVars setState now = (.errorLogged, false) := by
  unfold workerDispatch workerSendPhase
  rw [hnone]

/-- Closed witness for C10: a message naming the `plex` integration but
carrying no `variables` entry is dropped without calling `set_state`. -/
theorem missing_variables_key_drops_message_witness :
    workerDispatch
      { priority := 7, seq := 6, name := "webhook.plex", scheduled_at := 0,
        data := { vars := none, integration := some "plex",
                  integration_fn := none, templates := some [],
                  truncation := some "hard", refresh_interval := none },
        hold := 30, timeout := 60, indefinite := false, supersede_tag := "" }
      (.ok []) (.ok ()) 0 = (.errorLogged, false) :=
  missing_variables_key_drops_message _ _ _ _ rfl

/-! ### Webhook server (`_WebhookHandler.do_POST`)

The request handler is embedded as a function of the handler's bound
secret, the request line (path, secret header, secret query parameter),
the outcome of body parsing, and an environment describing the named
integration (whether loading it raised, whether it has `handle_webhook`,
and what the handler returned). -/

/-- The allowlist `_KNOWN_INTEGRATIONS` of scheduler.py. -/
def KNOWN_INTEGRATIONS : List String := ["bart", "plex", "trakt"]

/-- Python `str.strip` with `/`: removes leading and trailing slashes. -/
def stripSlashes (s : String) : String :=
  String.mk (((s.toList.dropWhile (· == '/')).reverse.dropWhile (· == '/')).reverse)

/-- Python `str.split` with a one-character separator, over the character
list: splitting the empty string yields one empty field, and adjacent
separators yield empty fields. -/
def splitChar (c : Char) : List Char → List (List Char)
  | [] => [[]]
  | x :: xs =>
    if x == c then [] :: splitChar c xs
    else
      match splitChar c xs with
      | [] => [[x]]
      | g :: gs => (x :: g) :: gs

/-- Python `path.split(sep)` for a one-character separator. -/
def pySplit (s : String) (c : Char) : List String :=
  (splitChar c s.toList).map String.mk

/-- The transport structure returned by an integration's
`handle_webhook` (`WebhookMessage` in scheduler.py). -/
structure WebhookMessage where
  data : MsgData
  priority : Int
  hold : Int
  timeout : Int
  name : String
  interrupt : Bool
  indefinite : Bool
  interrupt_only : Bool
  supersede_tag : String
deriving DecidableEq, Repr

/-- Environment of the dispatch stages of `do_POST`: whether
`_get_integration` raised (missing dependencies), whether the module has a
`handle_webhook` attribute, and the handler call's outcome (`error` for a
raised exception). -/
structure IntegrationEnv where
  loadError : Option String
  hasHandler : Bool
  handlerResult : Except Unit (Option WebhookMessage)
deriving Repr

/-- Observable outcome of one `do_POST` call: HTTP status, response text,
the enqueue call made (message returned by the handler plus the effective
name), and whether `_hold_interrupt.set()` ran. -/
structure PostOutcome where
  status : Nat
  body : String
  enqueued : Option (WebhookMessage × String)
  interruptSet : Bool
deriving DecidableEq, Repr

/-- The `do_POST` method of `_WebhookHandler`, in source order: path-shape
check, shared-secret check (header preferred, query fallback,
constant-time equality), allowlist check, body parsing, integration
loading, `handle_webhook` lookup, handler dispatch.  An `interrupt_only`
result sets the interrupt signal without enqueueing; any other returned
message is enqueued, and the signal is set when its `interrupt` flag is
true — in both cases unconditionally, with no look at any current-hold
state. -/
def do_POST (secret : String) (path : String) (headerSecret querySecret : String)
    (bodyError : Option String) (env : IntegrationEnv) : PostOutcome :=
  let parts := pySplit (stripSlashes path) '/'
  if ¬ (parts.length = 2 ∧ parts.headD "" = "webhook") then
    ⟨404, "Not found", none, false⟩
  else
    let integration_name := parts.getD 1 ""
    let provided := if headerSecret ≠ "" then headerSecret else querySecret
    if ¬ provided = secret then ⟨401, "Unauthorized", none, false⟩
    else if ¬ integration_name ∈ KNOWN_INTEGRATIONS then
      ⟨404, "Unknown integration", none, false⟩
    else
      match bodyError with
      | some msg => ⟨400, msg, none, false⟩
      | none =>
        match env.loadError with
        | some e => ⟨404, e, none, false⟩
        | none =>
          if ¬ env.hasHandler = true then
            ⟨404, "Integration does not support webhooks", none, false⟩
          else
            match env.handlerResult with
            | .error _ => ⟨500, "Internal error", none, false⟩
            | .ok none => ⟨200, "Discarded", none, false⟩
            | .ok (some result) =>
              if result.interrupt_only then ⟨200, "Interrupted", none, true⟩
              else
                ⟨200, "Enqueued",
                  some (result,
                    if result.name ≠ "" then result.name
                    else "webhook." ++ integration_name),
                  result.interrupt⟩

/-- Modelled from the spec: the current-hold priority gate that spec
section 4.F requires before the webhook server sets the interrupt signal
(set only when no hold is in progress or the held priority is below
INTERRUPT_THRESHOLD).  The current-hold state this gate reads —
`scheduler._current_hold_priority` guarded by `_current_hold_lock` — is
referenced by tests/core/test_webhook.py and (as `current_hold_tag`) by
integrations/plex.py, but no such state exists in scheduler.py, whose
`do_POST` sets the signal unconditionally. -/
def specInterruptGate (currentHoldPriority : Option Int) : Bool :=
  match currentHoldPriority with
  | none => true
  | some p => decide (p < INTERRUPT_PRIORITY_THRESHOLD)

/-- A concrete interrupt-only stop event of priority 8, as produced for
the spec scenario of a webhook arriving during a priority-8 hold. -/
def stopMsg : WebhookMessage :=
  { data := default, priority := 8, hold := 0, timeout := 0, name := "",
    interrupt := false, indefinite := false, interrupt_only := true,
    supersede_tag := "" }

/-- C1: evaluation of the code at the failing input.  A valid webhook POST
whose handler returns an `interrupt_only` message sets the interrupt
signal unconditionally — the embedded `do_POST` takes no current-hold
input at all — whereas the gate the spec (and the repository's own
webhook tests) require forbids the signal while a priority-8 hold is in
progress and allows it at priority 7. -/
theorem webhook_interrupt_gate_missing_code_bug :
    (do_POST "s" "/webhook/plex" "s" "" none
        ⟨none, true, .ok (some stopMsg)⟩).interruptSet = true ∧
    (do_POST "s" "/webhook/plex" "s" "" none
        ⟨none, true, .ok (some stopMsg)⟩).status = 200 ∧
    (do_POST "s" "/webhook/plex" "s" "" none
        ⟨none, true, .ok (some stopMsg)⟩).enqueued = none ∧
    specInterruptGate (some 8) = false ∧
    specInterruptGate (some 7) = true := by
  refine ⟨?_, ?_, ?_, by decide, by decide⟩ <;> rfl

/-- C2 counterexample: a POST to `/webhook/notareal` (a name outside the
allowlist) with a wrong secret is answered 401, not the 404 the claim
asserts for every request with an unknown integration name — the code
checks the secret before the allowlist. -/
theorem webhook_unknown_name_bad_secret_counterexample :
    (do_POST "right-secret" "/webhook/notareal" "wrong-secret" "" none
        ⟨none, false, .ok none⟩).status = 401 ∧
    (do_POST "right-secret" "/webhook/notareal" "wrong-secret" "" none
        ⟨none, false, .ok none⟩).status ≠ 404 := by
  refine ⟨rfl, ?_⟩
  rw [show (do_POST "right-secret" "/webhook/notareal" "wrong-secret" "" none
      ⟨none, false, .ok none⟩).status = 401 from rfl]
  decide

/-- C2 (amended): the webhook server validates path shape first, then the
shared secret, then the allowlist: a malformed path gets 404 regardless of
the secret; a well-formed path with a failing secret gets 401 regardless
of the integration name; and an unknown integration name gets 404 exactly
when the secret passes. -/
theorem webhook_validation_order
    (secret path headerSecret querySecret : String)
    (bodyError : Option String) (env : IntegrationEnv) :
    (¬ ((pySplit (stripSlashes path) '/').length = 2 ∧
        (pySplit (stripSlashes path) '/').headD "" = "webhook") →
      (do_POST secret path headerSecret querySecret bodyError env).status = 404) ∧
    (((pySplit (stripSlashes path) '/').length = 2 ∧
        (pySplit (stripSlashes path) '/').headD "" = "webhook") →
      ¬ (if headerSecret ≠ "" then headerSecret else querySecret) = secret →
      (do_POST secret path headerSecret querySecret bodyError env).status = 401) ∧
    (((pySplit (stripSlashes path) '/').length = 2 ∧
        (pySplit (stripSlashes path) '/').headD "" = "webhook") →
      (if headerSecret ≠ "" then headerSecret else querySecret) = secret →
      ¬ (pySplit (stripSlashes path) '/').getD 1 "" ∈ KNOWN_INTEGRATIONS →
      (do_POST secret path headerSecret querySecret bodyError env).status = 404) := by
  refine ⟨?_, ?_, ?_⟩
  · intro hpath
    unfold do_POST
    rw [if_pos hpath]
  · intro hpath hsec
    unfold do_POST
    rw [if_neg (by simpa using hpath), if_pos hsec]
  · intro hpath hsec hname
    unfold do_POST
    rw [if_neg (by simpa using hpath), if_neg (by simpa using hsec), if_pos hname]

/-- Closed witness for C2 (amended): with the correct secret, the unknown
integration name `notareal` is answered 404. -/
theorem webhook_validation_order_witness :
    (do_POST "right-secret" "/webhook/notareal" "right-secret" "" none
        ⟨none, false, .ok none⟩).status = 404 :=
  (webhook_validation_order "right-secret" "/webhook/notareal" "right-secret" ""
      none ⟨none, false, .ok none⟩).2.2 (by decide) (by decide) (by decide)

/-! ### The CPython `heapq` routines

`enqueue` filters the live heap list in place and calls `heapq.heapify`
when anything was removed; `PriorityQueue.put` is `heapq.heappush`.  Both
stdlib routines are embedded here over lists, generic in the element
comparison (`heapq` only ever uses `<`), and verified: each returns a
permutation of its input satisfying the zero-based binary min-heap
invariant. -/

section PyHeap

variable {α : Type} [Inhabited α] (lt : α → α → Bool)

/-- Total indexing with the type's default element out of range, standing
in for the in-range list accesses of the array code. -/
def nth (l : List α) (i : Nat) : α := l.getD i default

/-- Index of the parent of heap slot `j`. -/
def parentIdx (j : Nat) : Nat := (j - 1) / 2

theorem nth_set_eq (l : List α) (i : Nat) (a : α) (h : i < l.length) :
    nth (l.set i a) i = a := by
  induction l generalizing i with
  | nil => simp at h
  | cons x xs ih =>
    cases i with
    | zero => rfl
    | succ i => exact ih i (by simpa using h)

theorem nth_set_ne (l : List α) (i j : Nat) (a : α) (h : i ≠ j) :
    nth (l.set i a) j = nth l j := by
  induction l generalizing i j with
  | nil => rfl
  | cons x xs ih =>
    cases i with
    | zero =>
      cases j with
      | zero => exact absurd rfl h
      | succ j => rfl
    | succ i =>
      cases j with
      | zero => rfl
      | succ j => exact ih i j (by omega)

theorem set_nth_self (l : List α) (i : Nat) : l.set i (nth l i) = l := by
  induction l generalizing i with
  | nil => rfl
  | cons x xs ih =>
    cases i with
    | zero => rfl
    | succ i => simpa [List.set] using ih i

theorem nth_append_lt (l l2 : List α) (j : Nat) (h : j < l.length) :
    nth (l ++ l2) j = nth l j := by
  induction l generalizing j with
  | nil => simp at h
  | cons x xs ih =>
    cases j with
    | zero => rfl
    | succ j => exact ih j (by simpa using h)

theorem nth_append_self (l : List α) (x : α) : nth (l ++ [x]) l.length = x := by
  induction l with
  | nil => rfl
  | cons y ys ih => simpa using ih

theorem count_set [DecidableEq α] (l : List α) (i : Nat) (a c : α) (h : i < l.length) :
    (l.set i a).count c + ([nth l i].count c) = l.count c + ([a].count c) := by
  induction l generalizing i with
  | nil => simp at h
  | cons x xs ih =>
    cases i with
    | zero =>
      show (a :: xs).count c + ([x].count c) = (x :: xs).count c + ([a].count c)
      by_cases hca : c = a <;> by_cases hcx : c = x <;>
        simp [List.count_cons, hca, hcx] <;> omega
    | succ i =>
      have hi : i < xs.length := by simpa using h
      have := ih i hi
      show (x :: xs.set i a).count c + ([nth xs i].count c) =
        (x :: xs).count c + ([a].count c)
      by_cases hcx : c = x <;> simp [List.count_cons, hcx] at this ⊢ <;> omega

theorem set_set_perm [DecidableEq α] (l : List α) (p pp : Nat) (x : α)
    (hp : p < l.length) (hpp : pp < l.length) (hne : pp ≠ p) :
    ((l.set p (nth l pp)).set pp x).Perm (l.set p x) := by
  rw [List.perm_iff_count]
  intro c
  have h1 := count_set (l.set p (nth l pp)) pp x c (by simpa using hpp)
  have h2 := count_set l p (nth l pp) c hp
  have h3 := count_set l p x c hp
  rw [nth_set_ne l p pp (nth l pp) (fun hc => hne hc.symm)] at h1
  omega

/-- CPython `heapq._siftdown`: bubble `newitem`, conceptually sitting in
the hole at `pos`, up towards `startpos`, moving each greater parent down
into the hole, and write `newitem` at its resting place. -/
def siftdown (l : List α) (startpos pos : Nat) (newitem : α) : List α :=
  if h : startpos < pos then
    if lt newitem (nth l (parentIdx pos)) then
      siftdown (l.set pos (nth l (parentIdx pos))) startpos (parentIdx pos) newitem
    else l.set pos newitem
  else l.set pos newitem
termination_by pos
decreasing_by
  have : 0 < pos := by omega
  simp only [parentIdx]
  omega

/-- The child CPython `heapq._siftup` moves into the hole at `pos`: the
right child when it exists and the left child is not below it, otherwise
the left child. -/
def pickChild (l : List α) (endpos pos : Nat) : Nat :=
  if 2 * pos + 2 < endpos ∧ lt (nth l (2 * pos + 1)) (nth l (2 * pos + 2)) = false
  then 2 * pos + 2 else 2 * pos + 1

theorem pickChild_gt (l : List α) (endpos pos : Nat) :
    pos < pickChild lt l endpos pos := by
  unfold pickChild
  split <;> omega

theorem pickChild_lt (l : List α) (endpos pos : Nat) (h : 2 * pos + 1 < endpos) :
    pickChild lt l endpos pos < endpos := by
  unfold pickChild
  split <;> omega

/-- The descend phase of CPython `heapq._siftup`: move the smaller child
up into the hole until the hole reaches a leaf, then bubble `newitem` up
from the leaf (`_siftdown`). -/
def siftupLoop (l : List α) (endpos startpos pos : Nat) (newitem : α) : List α :=
  if h : 2 * pos + 1 < endpos then
    siftupLoop (l.set pos (nth l (pickChild lt l endpos pos)))
      endpos startpos (pickChild lt l endpos pos) newitem
  else siftdown lt l startpos pos newitem
termination_by endpos - pos
decreasing_by
  have := pickChild_gt lt l endpos pos
  omega

/-- CPython `heapq._siftup`. -/
def siftup (l : List α) (pos : Nat) : List α :=
  siftupLoop lt l l.length pos pos (nth l pos)

/-- The loop of CPython `heapq.heapify`: `_siftup` at `i = k-1, ..., 0`. -/
def heapifyGo (l : List α) : Nat → List α
  | 0 => l
  | k + 1 => heapifyGo (siftup lt l k) k

/-- CPython `heapq.heapify`: sift every internal node, last first. -/
def heapify (l : List α) : List α := heapifyGo lt l (l.length / 2)

/-- CPython `heapq.heappush`: append, then bubble the new item up. -/
def heappush (l : List α) (item : α) : List α :=
  siftdown lt (l ++ [item]) 0 l.length item

theorem siftdown_length (s : Nat) :
    ∀ p l (x : α), (siftdown lt l s p x).length = l.length := by
  intro p
  induction p using Nat.strong_induction_on with
  | _ p ih =>
    intro l x
    rw [siftdown]
    split
    · split
      · rename_i hsp _
        rw [ih (parentIdx p) (by simp only [parentIdx]; omega)]
        simp
      · simp
    · simp

theorem siftdown_perm [DecidableEq α] (s : Nat) :
    ∀ p l (x : α), p < l.length → (siftdown lt l s p x).Perm (l.set p x) := by
  intro p
  induction p using Nat.strong_induction_on with
  | _ p ih =>
    intro l x hp
    rw [siftdown]
    split
    · rename_i hsp
      split
      · rename_i hlt
        have hpplt : parentIdx p < p := by simp only [parentIdx]; omega
        have h1 := ih (parentIdx p) hpplt (l.set p (nth l (parentIdx p))) x
          (by simp; omega)
        refine h1.trans ?_
        exact set_set_perm l p (parentIdx p) x hp (by omega) (by omega)
      · exact List.Perm.refl _
    · exact List.Perm.refl _

theorem siftupLoop_length (s : Nat) :
    ∀ d endpos p l (x : α), endpos - p ≤ d →
      (siftupLoop lt l endpos s p x).length = l.length := by
  intro d
  induction d with
  | zero =>
    intro endpos p l x hd
    rw [siftupLoop]
    split
    · omega
    · rw [siftdown_length]
  | succ d ih =>
    intro endpos p l x hd
    rw [siftupLoop]
    split
    · rename_i h
      rw [ih endpos _ _ x (by have := pickChild_gt lt l endpos p; omega)]
      simp
    · rw [siftdown_length]

theorem siftupLoop_perm [DecidableEq α] (s : Nat) :
    ∀ d endpos p l (x : α), endpos - p ≤ d → p < l.length → endpos ≤ l.length →
      (siftupLoop lt l endpos s p x).Perm (l.set p x) := by
  intro d
  induction d with
  | zero =>
    intro endpos p l x hd hp he
    rw [siftupLoop]
    split
    · omega
    · exact siftdown_perm lt s p l x hp
  | succ d ih =>
    intro endpos p l x hd hp he
    rw [siftupLoop]
    split
    · rename_i h
      have hcgt := pickChild_gt lt l endpos p
      have hclt := pickChild_lt lt l endpos p h
      have h1 := ih endpos (pickChild lt l endpos p) (l.set p (nth l (pickChild lt l endpos p))) x
        (by omega) (by simp; omega) (by simp; omega)
      refine h1.trans ?_
      exact set_set_perm l p (pickChild lt l endpos p) x hp (by omega) (by omega)
    · exact siftdown_perm lt s p l x hp

theorem siftup_perm [DecidableEq α] (l : List α) (p : Nat) (hp : p < l.length) :
    (siftup lt l p).Perm l := by
  unfold siftup
  have h1 := siftupLoop_perm lt p (l.length - p) l.length p l (nth l p) (by omega) hp (le_refl _)
  rw [set_nth_self] at h1
  exact h1

theorem siftup_length (l : List α) (p : Nat) :
    (siftup lt l p).length = l.length := by
  unfold siftup
  exact siftupLoop_length lt p (l.length - p) l.length p l (nth l p) (by omega)

theorem heapifyGo_perm [DecidableEq α] :
    ∀ k l, 2 * k ≤ l.length → (heapifyGo lt l k).Perm l := by
  intro k
  induction k with
  | zero => intro l _; exact List.Perm.refl _
  | succ k ih =>
    intro l hk
    show (heapifyGo lt (siftup lt l k) k).Perm l
    have hlen := siftup_length lt l k
    have h1 := ih (siftup lt l k) (by omega)
    exact h1.trans (siftup_perm lt l k (by omega))

theorem heapify_perm [DecidableEq α] (l : List α) : (heapify lt l).Perm l :=
  heapifyGo_perm lt (l.length / 2) l (by omega)

theorem heappush_perm [DecidableEq α] (l : List α) (x : α) :
    (heappush lt l x).Perm (x :: l) := by
  unfold heappush
  have h1 := siftdown_perm lt 0 l.length (l ++ [x]) x (by simp)
  have h2 : (l ++ [x]).set l.length x = l ++ [x] := by
    have h3 := set_nth_self (l ++ [x]) l.length
    rw [nth_append_self] at h3
    exact h3
  rw [h2] at h1
  exact h1.trans (List.perm_append_singleton x l)

/-- The zero-based binary min-heap property maintained by `heapq`,
restricted to edges whose parent slot is at least `start` (the working
region of Floyd's bottom-up construction): no child compares strictly
below its parent. -/
def HeapFrom (l : List α) (start : Nat) : Prop :=
  ∀ j < l.length, 0 < j → start ≤ parentIdx j →
    lt (nth l j) (nth l (parentIdx j)) = false

instance decHeapFrom (l : List α) (start : Nat) : Decidable (HeapFrom lt l start) := by
  unfold HeapFrom
  infer_instance

theorem parentIdx_lt (j : Nat) (h : 0 < j) : parentIdx j < j := by
  simp only [parentIdx]
  omega

theorem child_shape (j : Nat) (h : 0 < j) :
    j = 2 * parentIdx j + 1 ∨ j = 2 * parentIdx j + 2 := by
  simp only [parentIdx]
  omega

/-- Whether heap slot `p` lies in the subtree rooted at slot `s`. -/
def isDesc (s p : Nat) : Bool :=
  if h : s < p then isDesc s (parentIdx p) else decide (s = p)
termination_by p
decreasing_by
  simp only [parentIdx]
  omega

theorem isDesc_self (s : Nat) : isDesc s s = true := by
  rw [isDesc]
  simp

theorem isDesc_step (s p : Nat) (h : s < p) : isDesc s p = isDesc s (parentIdx p) := by
  rw [isDesc]
  simp [h]

theorem isDesc_le : ∀ p s, isDesc s p = true → s ≤ p := by
  intro p
  induction p using Nat.strong_induction_on with
  | _ p ih =>
    intro s h
    rw [isDesc] at h
    split at h
    · omega
    · simp at h
      omega

theorem isDesc_zero : ∀ p, isDesc 0 p = true := by
  intro p
  induction p using Nat.strong_induction_on with
  | _ p ih =>
    rcases Nat.eq_zero_or_pos p with hp | hp
    · subst hp; exact isDesc_self 0
    · rw [isDesc_step 0 p hp]
      exact ih (parentIdx p) (parentIdx_lt p hp)

theorem isDesc_parent (s p : Nat) (h : isDesc s p = true) (hsp : s < p) :
    isDesc s (parentIdx p) = true := by
  rw [← isDesc_step s p hsp]
  exact h

theorem isDesc_child (s p c : Nat) (hd : isDesc s p = true) (hc : parentIdx c = p)
    (hcgt : p < c) : isDesc s c = true := by
  have hs : s ≤ p := isDesc_le p s hd
  rw [isDesc_step s c (by omega), hc]
  exact hd

/-- Precondition of the bubble-up pass `_siftdown(heap, s, p)` with
`newitem = x`: `p` is a hole in the subtree rooted at `s`; every region
edge not entering the hole is ordered; the hole's children are not below
`x`; and the hole's children are not below the hole's parent. -/
structure BubbleUpOK (l : List α) (s p : Nat) (x : α) : Prop where
  hp : p < l.length
  hdesc : isDesc s p = true
  edges : ∀ j, 0 < j → j < l.length → s ≤ parentIdx j → j ≠ p →
    lt (nth l j) (nth l (parentIdx j)) = false
  holeChildren : ∀ j, 0 < j → j < l.length → parentIdx j = p →
    lt (nth l j) x = false
  throughHole : s < p → ∀ j, 0 < j → j < l.length → parentIdx j = p →
    lt (nth l j) (nth l (parentIdx p)) = false

theorem siftdown_heap
    (hirr : ∀ a, lt a a = false)
    (htr : ∀ a b c, lt a b = true → lt b c = true → lt a c = true)
    (hneg : ∀ a b c, lt a b = false → lt b c = false → lt a c = false)
    (s : Nat) :
    ∀ p l (x : α), BubbleUpOK lt l s p x → HeapFrom lt (siftdown lt l s p x) s := by
  have hasymm : ∀ a b, lt a b = true → lt b a = false := by
    intro a b hab
    cases hba : lt b a
    · rfl
    · have := htr _ _ _ hab hba
      rw [hirr] at this
      exact absurd this (by simp)
  intro p
  induction p using Nat.strong_induction_on with
  | _ p ih =>
    intro l x hok
    obtain ⟨hp, hdesc, E, HC, TH⟩ := hok
    rw [siftdown]
    split
    · rename_i hsp
      have hp0 : 0 < p := by omega
      have hpplt : parentIdx p < p := parentIdx_lt p hp0
      have hppdesc : isDesc s (parentIdx p) = true := isDesc_parent s p hdesc hsp
      have hpps : s ≤ parentIdx p := isDesc_le _ _ hppdesc
      split
      · rename_i hlt
        -- the parent moves down into the hole; the hole rises to the parent
        apply ih (parentIdx p) hpplt
        refine ⟨by simp; omega, hppdesc, ?_, ?_, ?_⟩
        · -- region edges not entering the new hole
          intro j hj0 hjlen hregion hjne
          rw [List.length_set] at hjlen
          by_cases hjp : j = p
          · subst hjp
            rw [nth_set_eq l j (nth l (parentIdx j)) hp,
              nth_set_ne l j (parentIdx j) _ (by omega)]
            exact hirr _
          · rw [nth_set_ne l p j _ (fun hc => hjp hc.symm)]
            by_cases hpj : parentIdx j = p
            · rw [hpj, nth_set_eq l p _ hp]
              exact TH hsp j hj0 hjlen hpj
            · rw [nth_set_ne l p (parentIdx j) _ (fun hc => hpj hc.symm)]
              exact E j hj0 hjlen hregion hjp
        · -- children of the new hole are not below x
          intro j hj0 hjlen hpj
          rw [List.length_set] at hjlen
          by_cases hjp : j = p
          · subst hjp
            rw [nth_set_eq l j _ hp]
            exact hasymm _ _ hlt
          · rw [nth_set_ne l p j _ (fun hc => hjp hc.symm)]
            cases hc : lt (nth l j) x
            · rfl
            · have h1 := htr _ _ _ hc hlt
              have h2 := E j hj0 hjlen (by rw [hpj]; exact hpps) hjp
              rw [hpj] at h2
              rw [h2] at h1
              exact absurd h1 (by simp)
        · -- children of the new hole are not below its parent
          intro hspp j hj0 hjlen hpj
          rw [List.length_set] at hjlen
          have hpp0 : 0 < parentIdx p := by omega
          have hggdesc := isDesc_parent s (parentIdx p) hppdesc hspp
          have hggs : s ≤ parentIdx (parentIdx p) := isDesc_le _ _ hggdesc
          have hgglt : parentIdx (parentIdx p) < parentIdx p := parentIdx_lt _ hpp0
          have hEpp := E (parentIdx p) hpp0 (by omega) hggs (by omega)
          rw [nth_set_ne l p (parentIdx (parentIdx p)) _ (by omega)]
          by_cases hjp : j = p
          · subst hjp
            rw [nth_set_eq l j _ hp]
            exact hEpp
          · rw [nth_set_ne l p j _ (fun hc => hjp hc.symm)]
            have h1 := E j hj0 hjlen (by rw [hpj]; exact hpps) hjp
            rw [hpj] at h1
            exact hneg _ _ _ h1 hEpp
      · rename_i hlt
        -- x fits below the parent: place it in the hole
        intro j hjlen hj0 hregion
        rw [List.length_set] at hjlen
        by_cases hjp : j = p
        · subst hjp
          rw [nth_set_eq l j x hp, nth_set_ne l j (parentIdx j) x (by omega)]
          simpa using hlt
        · rw [nth_set_ne l p j x (fun hc => hjp hc.symm)]
          by_cases hpj : parentIdx j = p
          · rw [hpj, nth_set_eq l p x hp]
            exact HC j hj0 hjlen hpj
          · rw [nth_set_ne l p (parentIdx j) x (fun hc => hpj hc.symm)]
            exact E j hj0 hjlen hregion hjp
    · rename_i hsp
      -- the hole reached the subtree root: place x there
      have hps : p = s := by
        have := isDesc_le p s hdesc
        omega
      intro j hjlen hj0 hregion
      rw [List.length_set] at hjlen
      by_cases hjp : j = p
      · subst hjp
        have := parentIdx_lt j hj0
        omega
      · rw [nth_set_ne l p j x (fun hc => hjp hc.symm)]
        by_cases hpj : parentIdx j = p
        · rw [hpj, nth_set_eq l p x hp]
          exact HC j hj0 hjlen hpj
        · rw [nth_set_ne l p (parentIdx j) x (fun hc => hpj hc.symm)]
          exact E j hj0 hjlen hregion hjp

/-- Invariant of the descend phase of `_siftup`: the hole at `p` lies in
the subtree rooted at `s`, every region edge whose parent is not the hole
is ordered, and the hole's children are not below the hole's parent. -/
structure DescendOK (l : List α) (s p : Nat) : Prop where
  hp : p < l.length
  hdesc : isDesc s p = true
  edges : ∀ j, 0 < j → j < l.length → s ≤ parentIdx j → parentIdx j ≠ p →
    lt (nth l j) (nth l (parentIdx j)) = false
  through : s < p → ∀ j, 0 < j → j < l.length → parentIdx j = p →
    lt (nth l j) (nth l (parentIdx p)) = false

/-- At a leaf the hole has no children, so the descend invariant directly
yields the bubble-up precondition for any item. -/
theorem descendOK_to_bubbleUpOK (l : List α) (s p : Nat) (x : α)
    (hleaf : l.length ≤ 2 * p + 1) (hok : DescendOK lt l s p) :
    BubbleUpOK lt l s p x := by
  obtain ⟨hp, hdesc, E, TH⟩ := hok
  have hnochild : ∀ j, 0 < j → j < l.length → parentIdx j ≠ p := by
    intro j hj0 hjlen hc
    rcases child_shape j hj0 with h1 | h1 <;> omega
  refine ⟨hp, hdesc, ?_, ?_, ?_⟩
  · intro j hj0 hjlen hregion _
    exact E j hj0 hjlen hregion (hnochild j hj0 hjlen)
  · intro j hj0 hjlen hpj
    exact absurd hpj (hnochild j hj0 hjlen)
  · intro _ j hj0 hjlen hpj
    exact absurd hpj (hnochild j hj0 hjlen)

/-- One step of the descend phase: moving the smaller child up into the
hole preserves the descend invariant with the hole at that child. -/
theorem descendOK_step
    (hirr : ∀ a, lt a a = false)
    (htr : ∀ a b c, lt a b = true → lt b c = true → lt a c = true)
    (l : List α) (s p : Nat) (hok : DescendOK lt l s p)
    (h : 2 * p + 1 < l.length) :
    DescendOK lt (l.set p (nth l (pickChild lt l l.length p))) s
      (pickChild lt l l.length p) := by
  have hasymm : ∀ a b, lt a b = true → lt b a = false := by
    intro a b hab
    cases hba : lt b a
    · rfl
    · have := htr _ _ _ hab hba
      rw [hirr] at this
      exact absurd this (by simp)
  obtain ⟨hp, hdesc, E, TH⟩ := hok
  have hs : s ≤ p := isDesc_le _ _ hdesc
  have hcgt : p < pickChild lt l l.length p := pickChild_gt lt l l.length p
  have hclt : pickChild lt l l.length p < l.length := pickChild_lt lt l l.length p h
  have hcparent : parentIdx (pickChild lt l l.length p) = p := by
    unfold pickChild
    split <;> · simp only [parentIdx]; omega
  have hc0 : 0 < pickChild lt l l.length p := by omega
  refine ⟨by simpa using hclt, isDesc_child s p _ hdesc hcparent hcgt, ?_, ?_⟩
  · -- region edges whose parent is not the new hole
    intro j hj0 hjlen hregion hjne
    rw [List.length_set] at hjlen
    by_cases hjp : j = p
    · subst hjp
      have hj0' : 0 < j := hj0
      have hpplt : parentIdx j < j := parentIdx_lt j hj0
      have hsp : s < j := by omega
      rw [nth_set_eq l j _ hp, nth_set_ne l j (parentIdx j) _ (by omega)]
      exact TH hsp _ hc0 hclt hcparent
    · rw [nth_set_ne l p j _ (fun hc => hjp hc.symm)]
      by_cases hpj : parentIdx j = p
      · -- j is a child of the old hole
        rw [hpj, nth_set_eq l p _ hp]
        by_cases hjc : j = pickChild lt l l.length p
        · subst hjc
          exact hirr _
        · -- j is the sibling of the chosen child
          have hshape := child_shape j hj0
          rw [hpj] at hshape
          unfold pickChild at hjc ⊢
          split
          · rename_i hcond
            split at hjc
            · have hj1 : j = 2 * p + 1 := by omega
              subst hj1
              exact hcond.2
            · exact absurd hcond (by assumption)
          · rename_i hcond
            split at hjc
            · exact absurd (by assumption) hcond
            · have hj2 : j = 2 * p + 2 := by omega
              have h2len : 2 * p + 2 < l.length := by omega
              have : ¬ (lt (nth l (2 * p + 1)) (nth l (2 * p + 2)) = false) := by
                intro hcontra
                exact hcond ⟨h2len, hcontra⟩
              have hlt12 : lt (nth l (2 * p + 1)) (nth l (2 * p + 2)) = true := by
                cases hcc : lt (nth l (2 * p + 1)) (nth l (2 * p + 2))
                · exact absurd hcc this
                · rfl
              subst hj2
              exact hasymm _ _ hlt12
      · rw [nth_set_ne l p (parentIdx j) _ (fun hc => hpj hc.symm)]
        exact E j hj0 hjlen hregion hpj
  · -- children of the new hole are not below its parent (the old hole,
    -- which now holds the chosen child's value)
    intro hscp j hj0 hjlen hpj
    rw [List.length_set] at hjlen
    have hjgt : pickChild lt l l.length p < j := by
      have := parentIdx_lt j hj0
      omega
    rw [hcparent, nth_set_eq l p _ hp,
      nth_set_ne l p j _ (by omega)]
    have hE := E j hj0 hjlen (by rw [hpj]; omega) (by rw [hpj]; omega)
    rw [hpj] at hE
    exact hE

theorem siftupLoop_heap
    (hirr : ∀ a, lt a a = false)
    (htr : ∀ a b c, lt a b = true → lt b c = true → lt a c = true)
    (hneg : ∀ a b c, lt a b = false → lt b c = false → lt a c = false)
    (s : Nat) :
    ∀ d endpos p l (x : α), endpos - p ≤ d → endpos = l.length → DescendOK lt l s p →
      HeapFrom lt (siftupLoop lt l endpos s p x) s := by
  intro d
  induction d with
  | zero =>
    intro endpos p l x hd hend hok
    rw [siftupLoop]
    split
    · rename_i hlt
      have := hok.hp
      omega
    · rename_i hlt
      exact siftdown_heap lt hirr htr hneg s p l x
        (descendOK_to_bubbleUpOK lt l s p x (by omega) hok)
  | succ d ih =>
    intro endpos p l x hd hend hok
    rw [siftupLoop]
    split
    · rename_i hlt
      subst hend
      have hcgt := pickChild_gt lt l l.length p
      have hclt := pickChild_lt lt l l.length p hlt
      have hstep := descendOK_step lt hirr htr l s p hok hlt
      exact ih l.length (pickChild lt l l.length p) _ x (by omega) (by simp) hstep
    · rename_i hlt
      exact siftdown_heap lt hirr htr hneg s p l x
        (descendOK_to_bubbleUpOK lt l s p x (by omega) hok)

/-- The contract of `_siftup`: repairing the heap at `p`, given that every
deeper region edge is already ordered, orders every edge from `p` down. -/
theorem siftup_heap
    (hirr : ∀ a, lt a a = false)
    (htr : ∀ a b c, lt a b = true → lt b c = true → lt a c = true)
    (hneg : ∀ a b c, lt a b = false → lt b c = false → lt a c = false)
    (l : List α) (p : Nat) (hp : p < l.length) (hheap : HeapFrom lt l (p + 1)) :
    HeapFrom lt (siftup lt l p) p := by
  unfold siftup
  apply siftupLoop_heap lt hirr htr hneg p (l.length - p) l.length p l (nth l p)
    (le_refl _) rfl
  refine ⟨hp, isDesc_self p, ?_, ?_⟩
  · intro j hj0 hjlen hregion hne
    exact hheap j hjlen hj0 (by omega)
  · intro hcontra
    omega

theorem heapifyGo_heap
    (hirr : ∀ a, lt a a = false)
    (htr : ∀ a b c, lt a b = true → lt b c = true → lt a c = true)
    (hneg : ∀ a b c, lt a b = false → lt b c = false → lt a c = false) :
    ∀ k l, 2 * k ≤ l.length → HeapFrom lt l k → HeapFrom lt (heapifyGo lt l k) 0 := by
  intro k
  induction k with
  | zero => intro l _ hheap; exact hheap
  | succ k ih =>
    intro l hk hheap
    show HeapFrom lt (heapifyGo lt (siftup lt l k) k) 0
    have hlen := siftup_length lt l k
    apply ih (siftup lt l k) (by omega)
    have := siftup_heap lt hirr htr hneg l k (by omega) hheap
    exact this

/-- `heapq.heapify` establishes the heap invariant on any list. -/
theorem heapify_heap
    (hirr : ∀ a, lt a a = false)
    (htr : ∀ a b c, lt a b = true → lt b c = true → lt a c = true)
    (hneg : ∀ a b c, lt a b = false → lt b c = false → lt a c = false)
    (l : List α) : HeapFrom lt (heapify lt l) 0 := by
  unfold heapify
  apply heapifyGo_heap lt hirr htr hneg (l.length / 2) l (by omega)
  intro j hjlen hj0 hregion
  simp only [parentIdx] at hregion
  omega

/-- `heapq.heappush` preserves the heap invariant. -/
theorem heappush_heap
    (hirr : ∀ a, lt a a = false)
    (htr : ∀ a b c, lt a b = true → lt b c = true → lt a c = true)
    (hneg : ∀ a b c, lt a b = false → lt b c = false → lt a c = false)
    (l : List α) (x : α) (hheap : HeapFrom lt l 0) :
    HeapFrom lt (heappush lt l x) 0 := by
  unfold heappush
  apply siftdown_heap lt hirr htr hneg 0 l.length (l ++ [x]) x
  have hnochild : ∀ j, 0 < j → j < (l ++ [x]).length → parentIdx j ≠ l.length := by
    intro j hj0 hjlen hc
    rw [List.length_append] at hjlen
    rcases child_shape j hj0 with h1 | h1 <;> simp at hjlen <;> omega
  refine ⟨by simp, isDesc_zero _, ?_, ?_, ?_⟩
  · intro j hj0 hjlen hregion hjne
    rw [List.length_append] at hjlen
    have hjlt : j < l.length := by simp at hjlen; omega
    have hplt : parentIdx j < l.length := by
      have := parentIdx_lt j hj0
      omega
    rw [nth_append_lt l [x] j hjlt, nth_append_lt l [x] (parentIdx j) hplt]
    exact hheap j hjlt hj0 (by omega)
  · intro j hj0 hjlen hpj
    exact absurd hpj (hnochild j hj0 hjlen)
  · intro _ j hj0 hjlen hpj
    exact absurd hpj (hnochild j hj0 hjlen)

theorem filter_eq_self_of_length (l : List α) (p : α → Bool) :
    (l.filter p).length = l.length → l.filter p = l := by
  induction l with
  | nil => intro _; rfl
  | cons x xs ih =>
    intro h
    by_cases hx : p x = true
    · rw [List.filter_cons_of_pos hx] at h ⊢
      simp only [List.length_cons] at h
      rw [ih (by omega)]
    · rw [List.filter_cons_of_neg hx] at h
      have := List.length_filter_le p xs
      simp only [List.length_cons] at h
      exfalso
      omega

end PyHeap

/-! ### `enqueue` with supersede-tag dedup -/

/-- The `enqueue` entry point of scheduler.py: allocate the next sequence
number, build a `QueuedMessage` stamped with the current monotonic time,
and — when `supersede_tag` is non-empty — filter the live heap list in
place, re-running `heapq.heapify` when the filter removed anything, before
`heapq.heappush`ing the new message (`PriorityQueue.put`).  Returns the
new heap list and the updated sequence counter. -/
def enqueue (q : List QueuedMessage) (counter : Nat) (now : ℚ)
    (priority : Int) (data : MsgData) (hold timeout : Int) (name : String)
    (indefinite : Bool) (supersede_tag : String) :
    List QueuedMessage × Nat :=
  let msg : QueuedMessage :=
    { priority := priority, seq := counter, name := name, scheduled_at := now,
      data := data, hold := hold, timeout := timeout, indefinite := indefinite,
      supersede_tag := supersede_tag }
  let q1 :=
    if supersede_tag ≠ "" then
      let filtered := q.filter fun m => decide (m.supersede_tag ≠ supersede_tag)
      if filtered.length < q.length then heapify mlt filtered else filtered
    else q
  (heappush mlt q1 msg, counter + 1)

/-- C8: enqueueing with a non-empty supersede tag `T` removes every queued
message tagged `T` and adds the new message — the resulting heap list is a
permutation of the new message together with the untagged survivors, each
unchanged — and the binary-heap invariant holds again afterwards. -/
theorem enqueue_supersede_replaces_and_keeps_heap
    (q : List QueuedMessage) (counter : Nat) (now : ℚ) (priority : Int)
    (data : MsgData) (hold timeout : Int) (name : String) (indefinite : Bool)
    (tag : String) (htag : tag ≠ "") (hheap : HeapFrom mlt q 0) :
    (enqueue q counter now priority data hold timeout name indefinite tag).1.Perm
      ({ priority := priority, seq := counter, name := name, scheduled_at := now,
         data := data, hold := hold, timeout := timeout, indefinite := indefinite,
         supersede_tag := tag } ::
        q.filter fun m => decide (m.supersede_tag ≠ tag)) ∧
    HeapFrom mlt
      (enqueue q counter now priority data hold timeout name indefinite tag).1 0 := by
  have hirr : ∀ a, mlt a a = false := fun a => mlt_irrefl a
  have htr : ∀ a b c, mlt a b = true → mlt b c = true → mlt a c = true :=
    fun a b c h1 h2 => mlt_trans h1 h2
  have hneg : ∀ a b c, mlt a b = false → mlt b c = false → mlt a c = false :=
    fun a b c h1 h2 => mlt_negTrans h1 h2
  unfold enqueue
  dsimp only
  rw [if_pos htag]
  split
  · constructor
    · refine (heappush_perm mlt _ _).trans ?_
      exact List.Perm.cons _ (heapify_perm mlt _)
    · exact heappush_heap mlt hirr htr hneg _ _ (heapify_heap mlt hirr htr hneg _)
  · rename_i hlen
    have hfl : (q.filter fun m => decide (m.supersede_tag ≠ tag)).length = q.length := by
      have := List.length_filter_le (fun m => decide (m.supersede_tag ≠ tag)) q
      omega
    have hfe := filter_eq_self_of_length q _ hfl
    constructor
    · exact heappush_perm mlt _ _
    · refine heappush_heap mlt hirr htr hneg _ _ ?_
      rw [hfe]
      exact hheap

/-- The first message of the supersede-tag scenario. -/
def firstMsg : QueuedMessage :=
  { priority := 8, seq := 0, name := "first", scheduled_at := 0,
    data := default, hold := 60, timeout := 60, indefinite := false,
    supersede_tag := "plex" }

/-- The second message of the supersede-tag scenario. -/
def secondMsg : QueuedMessage :=
  { priority := 8, seq := 1, name := "second", scheduled_at := 1,
    data := default, hold := 60, timeout := 60, indefinite := false,
    supersede_tag := "plex" }

/-- Closed witness for C8, the supersede-tag scenario: enqueueing
`"second"` with tag `plex` onto a queue holding only the same-tagged
`"first"` leaves a single-element heap containing exactly `"second"`, with
the heap invariant intact. -/
theorem enqueue_supersede_witness :
    (enqueue [firstMsg] 1 1 8 default 60 60 "second" false "plex").1 = [secondMsg] ∧
    HeapFrom mlt (enqueue [firstMsg] 1 1 8 default 60 60 "second" false "plex").1 0 := by
  have h := enqueue_supersede_replaces_and_keeps_heap [firstMsg] 1 1 8 default 60 60
    "second" false "plex" (by decide) (by decide)
  exact ⟨List.perm_singleton.mp h.1, h.2⟩

end ENoteIon
